import Mathlib

/-!
# Verification of the transaction engine

A shallow embedding of the `transaction-engine` repository
(`src/engine.rs`, `src/types.rs`) and proofs about it.

Modelling choices:
* Rust's `rust_decimal::Decimal` values flowing through the engine are
  modelled as exact rationals (`ℚ`): within the engine the only operations
  are `+`, `-` and `>=`, which `rust_decimal` performs exactly at these
  scales.  For the output-formatting contract of `types.rs`, where the
  mantissa/scale representation is observable, a dedicated mantissa/scale
  type `Dec` is used.
* `HashMap<u16, Account>` and `HashMap<u32, (TransactionInfo, Decimal)>`
  are modelled as association lists keyed by `client_id` (stored inside
  each `Account`) resp. `tx_id`, with lookup = `HashMap::get`,
  insert-or-overwrite = `HashMap::insert`, remove = `HashMap::remove`,
  and entry-or-insert = `ensureAccount`.  The list order records insertion
  order; note that the iteration order of Rust's `std` `HashMap` is
  unspecified, so no theorem below relies on the order of the list, only
  on its contents.
-/

namespace TransactionEngine

/-- Struct `Account` from `src/types.rs`: one row of the final snapshot. -/
structure Account where
  clientId : ℕ
  available : ℚ
  held : ℚ
  total : ℚ
  locked : Bool
  deriving DecidableEq, Repr

/-- Constructor `Account::new` from `src/types.rs`. -/
def Account.new (clientId : ℕ) : Account :=
  { clientId := clientId, available := 0, held := 0, total := 0, locked := false }

/-- Enum `TransactionType` from `src/types.rs`. -/
inductive TransactionType where
  | deposit (amount : ℚ)
  | withdrawal (amount : ℚ)
  | dispute
  | resolve
  | chargeback
  deriving DecidableEq, Repr

/-- Struct `Transaction` from `src/types.rs`. -/
structure Transaction where
  clientId : ℕ
  txId : ℕ
  txType : TransactionType
  deriving DecidableEq, Repr

/-- Enum `TransactionInfo` from `src/engine.rs`: the dispute status of a
history record. -/
inductive TransactionInfo where
  | regular
  | underDispute
  deriving DecidableEq, Repr

/-- The history map `HashMap<u32, (TransactionInfo, Decimal)>` of
`src/engine.rs`, as an association list keyed by `tx_id`. -/
abbrev History : Type := List (ℕ × TransactionInfo × ℚ)

/-- Struct `Engine` from `src/engine.rs`. -/
structure Engine where
  accounts : List Account
  history : History

/-- Constructor `Engine::new`. -/
def Engine.new : Engine := { accounts := [], history := [] }

/-- Lookup `self.accounts.get(&c)`: the stored account whose `client_id` is `c`. -/
def findAccount (l : List Account) (c : ℕ) : Option Account :=
  match l with
  | [] => none
  | a :: l => if a.clientId = c then some a else findAccount l c

/-- The account observed through `entry(c).or_insert(Account::new(c))`:
the stored account when present, a fresh zero account otherwise. -/
def accountFor (l : List Account) (c : ℕ) : Account :=
  (findAccount l c).getD (Account.new c)

/-- The key-creation half of `entry(c).or_insert(Account::new(c))`:
adds a fresh zero account when `c` is unknown. -/
def ensureAccount (l : List Account) (c : ℕ) : List Account :=
  if (findAccount l c).isSome then l else l ++ [Account.new c]

/-- Writing back through the `&mut Account` of `entry(c)`: replaces the
stored account for `c` (keys are unique, so replacing the first and only
occurrence models the `HashMap` write). -/
def updateAccount (l : List Account) (c : ℕ) (a : Account) : List Account :=
  match l with
  | [] => []
  | b :: l => if b.clientId = c then a :: l else b :: updateAccount l c a

/-- Lookup `self.history.get(&t)`. -/
def histGet (h : History) (t : ℕ) : Option (TransactionInfo × ℚ) :=
  match h with
  | [] => none
  | p :: h => if p.1 = t then some p.2 else histGet h t

/-- Write `self.history.insert(t, v)`: overwrite when present, add otherwise. -/
def histInsert (h : History) (t : ℕ) (v : TransactionInfo × ℚ) : History :=
  match h with
  | [] => [(t, v)]
  | p :: h => if p.1 = t then (t, v) :: h else p :: histInsert h t v

/-- Removal `self.history.remove(&t)`. -/
def histRemove (h : History) (t : ℕ) : History :=
  match h with
  | [] => []
  | p :: h => if p.1 = t then histRemove h t else p :: histRemove h t

/-- The `match tx.tx_type` block of `Engine::add_transaction`
(`src/engine.rs` lines 27–73): given the account observed through the
`entry`, the current history and the transaction's `tx_id`, it returns
the mutated account together with the new history. -/
def applyRules (account : Account) (history : History) (txId : ℕ) :
    TransactionType → Account × History
  | .deposit amount =>
      ({ account with available := account.available + amount },
       histInsert history txId (.regular, amount))
  | .withdrawal amount =>
      (if amount ≤ account.available then
         { account with available := account.available - amount }
       else account,
       history)
  | .dispute =>
      match histGet history txId with
      | some (.regular, amount) =>
          if amount ≤ account.available then
            ({ account with available := account.available - amount,
                            held := account.held + amount },
             histInsert history txId (.underDispute, amount))
          else (account, history)
      | _ => (account, history)
  | .resolve =>
      match histGet history txId with
      | some (.underDispute, amount) =>
          ({ account with available := account.available + amount,
                          held := account.held - amount },
           histRemove history txId)
      | _ => (account, history)
  | .chargeback =>
      match histGet history txId with
      | some (.underDispute, amount) =>
          ({ account with held := account.held - amount, locked := true },
           histRemove history txId)
      | _ => (account, history)

/-- The account written back at the end of `Engine::add_transaction`:
the mutated account with `total` recomputed as `available + held`
(`src/engine.rs` line 75). -/
def finalAccount (e : Engine) (tx : Transaction) : Account :=
  let step := applyRules (accountFor e.accounts tx.clientId) e.history tx.txId tx.txType
  { step.1 with total := step.1.available + step.1.held }

/-- Method `Engine::add_transaction` from `src/engine.rs`: the account for
`tx.client_id` is created if absent, the per-kind rule of `applyRules`
is applied, and `total` is recomputed as `available + held`. -/
def addTransaction (e : Engine) (tx : Transaction) : Engine :=
  { accounts := updateAccount (ensureAccount e.accounts tx.clientId) tx.clientId
      (finalAccount e tx),
    history := (applyRules (accountFor e.accounts tx.clientId) e.history tx.txId tx.txType).2 }

/-- Method `Engine::get_accounts`: the values of the account map.  (The Rust
`HashMap::into_values` yields them in an unspecified order; here the list
carries insertion order, and no order-sensitive fact is derived from it.) -/
def getAccounts (e : Engine) : List Account := e.accounts

/-- The whole run: an engine fed a sequence of transactions from the
initial empty state, as driven by `src/main.rs`. -/
def runEngine (txs : List Transaction) : Engine :=
  txs.foldl addTransaction Engine.new

/-! ## The output-formatting contract of `src/types.rs`

`rust_decimal::Decimal` as its mantissa/scale representation, which the
serializer of `custom_serde` observes: the represented value is
`m / 10 ^ s`.  (The 96-bit mantissa bound is irrelevant at the scales
exercised here and is not modelled.) -/

/-- Value of `rust_decimal::Decimal`: integer mantissa `m` and scale `s`,
denoting `m / 10 ^ s`. -/
structure Dec where
  m : ℤ
  s : ℕ
  deriving DecidableEq, Repr

/-- The rational value denoted by a `Dec`. -/
def Dec.toRat (d : Dec) : ℚ := (d.m : ℚ) / (10 : ℚ) ^ d.s

/-- Divide `n` by `p > 0` rounding half to even (`rust_decimal`'s default
`MidpointNearestEven` strategy, applied to the mantissa magnitude). -/
def roundHalfEvenMag (n p : ℕ) : ℕ :=
  let q := n / p
  let r := n % p
  if p < 2 * r then q + 1
  else if 2 * r < p then q
  else if q % 2 = 0 then q else q + 1

/-- Method `Decimal::round_dp(dp)`: returns the value unchanged when its scale
is already at most `dp`, otherwise rounds the mantissa magnitude to
scale `dp` with banker's rounding, keeping the sign. -/
def Dec.round_dp (d : Dec) (dp : ℕ) : Dec :=
  if d.s ≤ dp then d
  else
    let mag := roundHalfEvenMag d.m.natAbs (10 ^ (d.s - dp))
    { m := if d.m < 0 then -(mag : ℤ) else (mag : ℤ), s := dp }

/-- Method `Decimal::set_scale`: overwrites the scale field, leaving the
mantissa untouched (so it does **not** preserve the denoted value:
`Decimal::ONE.set_scale(5)` denotes `0.00001`). -/
def Dec.set_scale (d : Dec) (s : ℕ) : Dec := { m := d.m, s := s }

/-- Rendering via `Decimal`'s `Display`: the mantissa digits with a decimal point `s`
digits from the right (zero-padded on the left when needed), no point
when `s = 0`, and a leading minus sign for negative values. -/
def Dec.render (d : Dec) : String :=
  let sign := if d.m < 0 then "-" else ""
  let n := d.m.natAbs
  if d.s = 0 then sign ++ toString n
  else
    let p := 10 ^ d.s
    let fstr := toString (n % p)
    sign ++ toString (n / p) ++ "." ++
      String.mk (List.replicate (d.s - fstr.length) '0') ++ fstr

/-- Function `custom_serde::serialize_decimal` from `src/types.rs`: round to 4
fractional digits, force a scale of 1 on a scale-0 result via
`set_scale`, and render. -/
def serialize_decimal (value : Dec) : String :=
  let rounded := value.round_dp 4
  let rounded := if rounded.s = 0 then rounded.set_scale 1 else rounded
  rounded.render

/-! ## Map lemmas -/

theorem findAccount_clientId (l : List Account) (c : ℕ) (a : Account)
    (h : findAccount l c = some a) : a.clientId = c := by
  induction l with
  | nil => simp [findAccount] at h
  | cons b l ih =>
    by_cases hb : b.clientId = c
    · simp [findAccount, hb] at h; exact h ▸ hb
    · simp [findAccount, hb] at h; exact ih h

theorem accountFor_clientId (l : List Account) (c : ℕ) : (accountFor l c).clientId = c := by
  unfold accountFor
  cases h : findAccount l c with
  | none => simp [Account.new]
  | some a => simpa using findAccount_clientId l c a h

theorem mem_of_findAccount (l : List Account) (c : ℕ) (a : Account)
    (h : findAccount l c = some a) : a ∈ l := by
  induction l with
  | nil => simp [findAccount] at h
  | cons b l ih =>
    by_cases hb : b.clientId = c
    · simp [findAccount, hb] at h; simp [h]
    · simp [findAccount, hb] at h; exact List.mem_cons_of_mem b (ih h)

theorem histGet_histInsert_self (h : History) (t : ℕ) (v : TransactionInfo × ℚ) :
    histGet (histInsert h t v) t = some v := by
  induction h with
  | nil => simp [histInsert, histGet]
  | cons q h ih =>
    by_cases hq : q.1 = t
    · simp [histInsert, histGet, hq]
    · simp [histInsert, histGet, hq, ih]

theorem histGet_histInsert_ne (h : History) (t t' : ℕ) (v : TransactionInfo × ℚ)
    (hne : t' ≠ t) :
    histGet (histInsert h t v) t' = histGet h t' := by
  induction h with
  | nil => simp [histInsert, histGet, hne, Ne.symm hne]
  | cons q h ih =>
    by_cases hq : q.1 = t
    · simp [histInsert, histGet, hq, hne, Ne.symm hne]
    · by_cases hq' : q.1 = t'
      · simp [histInsert, histGet, hq, hq', hne, Ne.symm hne]
      · simp [histInsert, histGet, hq, hq', hne, Ne.symm hne, ih]

theorem histGet_histRemove_self (h : History) (t : ℕ) :
    histGet (histRemove h t) t = none := by
  induction h with
  | nil => simp [histRemove, histGet]
  | cons q h ih =>
    by_cases hq : q.1 = t
    · simp [histRemove, hq, ih]
    · simp [histRemove, histGet, hq, ih]

theorem histGet_histRemove_ne (h : History) (t t' : ℕ) (hne : t' ≠ t) :
    histGet (histRemove h t) t' = histGet h t' := by
  induction h with
  | nil => simp [histRemove]
  | cons q h ih =>
    by_cases hq : q.1 = t
    · have hq' : q.1 ≠ t' := by rw [hq]; exact Ne.symm hne
      simp [histRemove, histGet, hq, hq', hne, Ne.symm hne, ih]
    · by_cases hq' : q.1 = t'
      · simp [histRemove, histGet, hq, hq', hne, Ne.symm hne]
      · simp [histRemove, histGet, hq, hq', hne, Ne.symm hne, ih]

theorem findAccount_append (l l' : List Account) (c : ℕ) :
    findAccount (l ++ l') c =
      match findAccount l c with
      | some a => some a
      | none => findAccount l' c := by
  induction l with
  | nil => simp [findAccount]
  | cons b l ih =>
    by_cases hb : b.clientId = c
    · simp [findAccount, hb]
    · simp [findAccount, hb, ih]

theorem findAccount_ensureAccount_self (l : List Account) (c : ℕ) :
    findAccount (ensureAccount l c) c = some (accountFor l c) := by
  unfold ensureAccount accountFor
  cases hfind : findAccount l c with
  | some a => simp [hfind]
  | none => simp [hfind, findAccount_append, findAccount, Account.new]

theorem findAccount_ensureAccount_ne (l : List Account) (c c' : ℕ) (hne : c' ≠ c) :
    findAccount (ensureAccount l c) c' = findAccount l c' := by
  unfold ensureAccount
  cases hfind : findAccount l c with
  | some a => simp
  | none =>
    cases hfind' : findAccount l c' with
    | some a => simp [findAccount_append, hfind']
    | none => simp [findAccount_append, hfind', findAccount, Account.new, Ne.symm hne]

theorem findAccount_updateAccount_self (l : List Account) (c : ℕ) (a : Account)
    (ha : a.clientId = c) (hp : (findAccount l c).isSome) :
    findAccount (updateAccount l c a) c = some a := by
  induction l with
  | nil => simp [findAccount] at hp
  | cons b l ih =>
    by_cases hb : b.clientId = c
    · simp [updateAccount, findAccount, hb, ha]
    · simp [findAccount, hb] at hp
      simp [updateAccount, findAccount, hb, ih hp]

theorem findAccount_updateAccount_ne (l : List Account) (c c' : ℕ) (a : Account)
    (ha : a.clientId = c) (hne : c' ≠ c) :
    findAccount (updateAccount l c a) c' = findAccount l c' := by
  induction l with
  | nil => simp [updateAccount]
  | cons b l ih =>
    by_cases hb : b.clientId = c
    · have ha' : a.clientId ≠ c' := by rw [ha]; exact Ne.symm hne
      have hb' : b.clientId ≠ c' := by rw [hb]; exact Ne.symm hne
      simp [updateAccount, findAccount, hb, ha', hb', hne, Ne.symm hne]
    · by_cases hb' : b.clientId = c'
      · simp [updateAccount, findAccount, hb, hb', hne, Ne.symm hne]
      · simp [updateAccount, findAccount, hb, hb', hne, Ne.symm hne, ih]

theorem mem_updateAccount (l : List Account) (c : ℕ) (a b : Account)
    (hb : b ∈ updateAccount l c a) : b = a ∨ b ∈ l := by
  induction l with
  | nil => simp [updateAccount] at hb
  | cons q l ih =>
    by_cases hq : q.clientId = c
    · simp [updateAccount, hq] at hb
      rcases hb with hb | hb
      · exact Or.inl hb
      · exact Or.inr (List.mem_cons_of_mem q hb)
    · simp [updateAccount, hq] at hb
      rcases hb with hb | hb
      · exact Or.inr (by simp [hb])
      · rcases ih hb with h | h
        · exact Or.inl h
        · exact Or.inr (List.mem_cons_of_mem q h)

theorem mem_ensureAccount (l : List Account) (c : ℕ) (b : Account)
    (hb : b ∈ ensureAccount l c) : b ∈ l ∨ b = Account.new c := by
  unfold ensureAccount at hb
  by_cases hp : (findAccount l c).isSome
  · rw [if_pos hp] at hb; exact Or.inl hb
  · rw [if_neg hp] at hb
    rcases List.mem_append.mp hb with h | h
    · exact Or.inl h
    · exact Or.inr (List.mem_singleton.mp h)

/-! ## Step lemmas about `addTransaction` -/

theorem applyRules_clientId (a : Account) (h : History) (t : ℕ) (k : TransactionType) :
    (applyRules a h t k).1.clientId = a.clientId := by
  cases k with
  | deposit amount => rfl
  | withdrawal amount => by_cases hle : amount ≤ a.available <;> simp [applyRules, hle]
  | dispute =>
    rcases hg : histGet h t with _ | ⟨ti, amt⟩
    · simp [applyRules, hg]
    · cases ti
      · by_cases hle : amt ≤ a.available <;> simp [applyRules, hg, hle]
      · simp [applyRules, hg]
  | resolve =>
    rcases hg : histGet h t with _ | ⟨ti, amt⟩
    · simp [applyRules, hg]
    · cases ti <;> simp [applyRules, hg]
  | chargeback =>
    rcases hg : histGet h t with _ | ⟨ti, amt⟩
    · simp [applyRules, hg]
    · cases ti <;> simp [applyRules, hg]

theorem finalAccount_clientId (e : Engine) (tx : Transaction) :
    (finalAccount e tx).clientId = tx.clientId := by
  unfold finalAccount
  simp [applyRules_clientId, accountFor_clientId]

theorem findAccount_addTransaction_self (e : Engine) (tx : Transaction) :
    findAccount (addTransaction e tx).accounts tx.clientId = some (finalAccount e tx) := by
  unfold addTransaction
  apply findAccount_updateAccount_self
  · exact finalAccount_clientId e tx
  · rw [findAccount_ensureAccount_self]; rfl

theorem accountFor_addTransaction_self (e : Engine) (tx : Transaction) :
    accountFor (addTransaction e tx).accounts tx.clientId = finalAccount e tx := by
  unfold accountFor
  rw [findAccount_addTransaction_self]
  rfl

theorem findAccount_addTransaction_ne (e : Engine) (tx : Transaction) (c : ℕ)
    (hne : c ≠ tx.clientId) :
    findAccount (addTransaction e tx).accounts c = findAccount e.accounts c := by
  unfold addTransaction
  rw [findAccount_updateAccount_ne _ _ _ _ (finalAccount_clientId e tx) hne,
      findAccount_ensureAccount_ne _ _ _ hne]

theorem histGet_addTransaction_ne (e : Engine) (tx : Transaction) (t : ℕ)
    (hne : t ≠ tx.txId) :
    histGet (addTransaction e tx).history t = histGet e.history t := by
  obtain ⟨c, i, k⟩ := tx
  unfold addTransaction
  cases k with
  | deposit amount => simpa [applyRules] using histGet_histInsert_ne e.history i t _ hne
  | withdrawal amount => simp [applyRules]
  | dispute =>
    rcases hg : histGet e.history i with _ | ⟨ti, amt⟩
    · simp [applyRules, hg]
    · cases ti
      · by_cases hle : amt ≤ (accountFor e.accounts c).available
        · simpa [applyRules, hg, hle] using histGet_histInsert_ne e.history i t _ hne
        · simp [applyRules, hg, hle]
      · simp [applyRules, hg]
  | resolve =>
    rcases hg : histGet e.history i with _ | ⟨ti, amt⟩
    · simp [applyRules, hg]
    · cases ti
      · simp [applyRules, hg]
      · simpa [applyRules, hg] using histGet_histRemove_ne e.history i t hne
  | chargeback =>
    rcases hg : histGet e.history i with _ | ⟨ti, amt⟩
    · simp [applyRules, hg]
    · cases ti
      · simp [applyRules, hg]
      · simpa [applyRules, hg] using histGet_histRemove_ne e.history i t hne

/-! ## The totals invariant -/

/-- Every stored account satisfies `total = available + held`. -/
def InvTotals (e : Engine) : Prop :=
  ∀ a ∈ e.accounts, a.total = a.available + a.held

theorem invTotals_addTransaction (e : Engine) (tx : Transaction)
    (hinv : InvTotals e) : InvTotals (addTransaction e tx) := by
  intro a ha
  unfold addTransaction at ha
  rcases mem_updateAccount _ _ _ _ ha with h | h
  · subst h; rfl
  · rcases mem_ensureAccount _ _ _ h with h' | h'
    · exact hinv a h'
    · subst h'; simp [Account.new]

theorem invTotals_runEngine (txs : List Transaction) : InvTotals (runEngine txs) := by
  unfold runEngine
  have step : ∀ e, InvTotals e → InvTotals (List.foldl addTransaction e txs) := by
    induction txs with
    | nil => intro e he; exact he
    | cons tx txs ih => intro e he; exact ih _ (invTotals_addTransaction e tx he)
  refine step Engine.new ?_
  intro a ha
  simp [Engine.new] at ha

/-! ## Claim theorems -/

/-- C1: for every sequence of applied transactions and every account in the
engine's state, the account's `total` field equals `available + held` with
exact equality — `add_transaction` recomputes `total` unconditionally for
the touched account and leaves the others untouched. -/
theorem total_eq_available_add_held (txs : List Transaction) (a : Account)
    (ha : a ∈ (runEngine txs).accounts) : a.total = a.available + a.held :=
  invTotals_runEngine txs a ha

/-- Witness for C1: the account produced by a single deposit of 10. -/
theorem total_eq_available_add_held_witness :
    Account.mk 1 10 0 10 false ∈ (runEngine [⟨1, 1, .deposit 10⟩]).accounts ∧
    (Account.mk 1 10 0 10 false).total =
      (Account.mk 1 10 0 10 false).available + (Account.mk 1 10 0 10 false).held := by
  have hmem : Account.mk 1 10 0 10 false ∈ (runEngine [⟨1, 1, .deposit 10⟩]).accounts := by
    norm_num [runEngine, addTransaction, applyRules, finalAccount, ensureAccount, accountFor,
      findAccount, updateAccount, histInsert, Engine.new, Account.new]
  exact ⟨hmem, total_eq_available_add_held [⟨1, 1, .deposit 10⟩] _ hmem⟩

/-- Counterexample to C2 as stated: a record that is `UnderDispute` is moved
straight back to `Regular` by a later `Deposit` reusing the same `tx_id`
(`history.insert` overwrites), with no removal of the record — the claimed
state machine `∅ → Regular → UnderDispute → ∅` has no such Deposit edge. -/
theorem dispute_record_overwritten_by_deposit :
    histGet (runEngine [⟨1, 1, .deposit 10⟩, ⟨1, 1, .dispute⟩]).history 1 =
      some (.underDispute, 10) ∧
    histGet (runEngine
        [⟨1, 1, .deposit 10⟩, ⟨1, 1, .dispute⟩, ⟨1, 1, .deposit 5⟩]).history 1 =
      some (.regular, 5) := by
  norm_num [runEngine, addTransaction, applyRules, finalAccount, ensureAccount, accountFor,
    findAccount, updateAccount, histGet, histInsert, Engine.new, Account.new]

/-- C2 amended: a single `apply` changes the history record of a `tx_id`
only along these edges — a Deposit with that `tx_id` sets it to
`{Regular, amt}` from any state (overwrite), a successful Dispute moves
`Regular → UnderDispute`, a successful Resolve or Chargeback removes an
`UnderDispute` record, and otherwise the record is unchanged. -/
theorem history_step_characterization (e : Engine) (tx : Transaction) (t : ℕ) :
    histGet (addTransaction e tx).history t = histGet e.history t
  ∨ (tx.txId = t ∧ ∃ amt : ℚ,
      (tx.txType = .deposit amt ∧
        histGet (addTransaction e tx).history t = some (.regular, amt))
    ∨ (tx.txType = .dispute ∧
        histGet e.history t = some (.regular, amt) ∧
        histGet (addTransaction e tx).history t = some (.underDispute, amt))
    ∨ ((tx.txType = .resolve ∨ tx.txType = .chargeback) ∧
        histGet e.history t = some (.underDispute, amt) ∧
        histGet (addTransaction e tx).history t = none)) := by
  obtain ⟨c, i, k⟩ := tx
  by_cases hti : i = t
  · subst hti
    cases k with
    | deposit amount =>
      refine Or.inr ⟨rfl, amount, Or.inl ⟨rfl, ?_⟩⟩
      simpa [addTransaction, applyRules] using
        histGet_histInsert_self e.history i (.regular, amount)
    | withdrawal amount => exact Or.inl (by simp [addTransaction, applyRules])
    | dispute =>
      rcases hg : histGet e.history i with _ | ⟨ti, amt⟩
      · exact Or.inl (by simp [addTransaction, applyRules, hg])
      · cases ti with
        | regular =>
          by_cases hle : amt ≤ (accountFor e.accounts c).available
          · refine Or.inr ⟨rfl, amt, Or.inr (Or.inl ⟨rfl, rfl, ?_⟩)⟩
            simpa [addTransaction, applyRules, hg, hle] using
              histGet_histInsert_self e.history i (.underDispute, amt)
          · exact Or.inl (by simp [addTransaction, applyRules, hg, hle])
        | underDispute => exact Or.inl (by simp [addTransaction, applyRules, hg])
    | resolve =>
      rcases hg : histGet e.history i with _ | ⟨ti, amt⟩
      · exact Or.inl (by simp [addTransaction, applyRules, hg])
      · cases ti with
        | regular => exact Or.inl (by simp [addTransaction, applyRules, hg])
        | underDispute =>
          refine Or.inr ⟨rfl, amt, Or.inr (Or.inr ⟨Or.inl rfl, rfl, ?_⟩)⟩
          simpa [addTransaction, applyRules, hg] using
            histGet_histRemove_self e.history i
    | chargeback =>
      rcases hg : histGet e.history i with _ | ⟨ti, amt⟩
      · exact Or.inl (by simp [addTransaction, applyRules, hg])
      · cases ti with
        | regular => exact Or.inl (by simp [addTransaction, applyRules, hg])
        | underDispute =>
          refine Or.inr ⟨rfl, amt, Or.inr (Or.inr ⟨Or.inr rfl, rfl, ?_⟩)⟩
          simpa [addTransaction, applyRules, hg] using
            histGet_histRemove_self e.history i
  · exact Or.inl (histGet_addTransaction_ne e ⟨c, i, k⟩ t (fun h => hti h.symm))

/-- C4 (evaluation at the failing input): `serialize_decimal` on the stored
balance 10 — mantissa 10, scale 0, e.g. the `available` after a deposit of
`10` — renders `"1.0"`.  Rounding to 4 digits leaves the value 10 unchanged,
yet the rendered string denotes 1 (it is the rendering of mantissa 10 at
scale 1), so the output's numeric value is not the stored amount. -/
theorem serialize_decimal_misrenders_whole_numbers :
    serialize_decimal ⟨10, 0⟩ = "1.0" ∧
    Dec.round_dp ⟨10, 0⟩ 4 = ⟨10, 0⟩ ∧
    Dec.render ⟨10, 1⟩ = "1.0" ∧
    Dec.toRat ⟨10, 0⟩ = 10 ∧
    Dec.toRat ⟨10, 1⟩ = 1 := by
  refine ⟨by decide, by decide, by decide, ?_, ?_⟩ <;> norm_num [Dec.toRat]

/-- C8: `add_transaction` is total — every transaction value against every
engine state yields a well-defined next state — and it is local: it can
only touch the account of the transaction's own `client_id` and the history
record of its own `tx_id`; every other account and record is unchanged, so
inapplicable transactions are absorbed without failing. -/
theorem addTransaction_total_with_frame (e : Engine) (tx : Transaction) :
    ∃ new : Engine, addTransaction e tx = new ∧
      (∀ c, c ≠ tx.clientId → findAccount new.accounts c = findAccount e.accounts c) ∧
      (∀ t, t ≠ tx.txId → histGet new.history t = histGet e.history t) :=
  ⟨addTransaction e tx, rfl,
   fun c hc => findAccount_addTransaction_ne e tx c hc,
   fun t ht => histGet_addTransaction_ne e tx t ht⟩

/-- Witness for C8 at a concrete state and transaction. -/
theorem addTransaction_total_with_frame_witness :
    ∃ new : Engine, addTransaction Engine.new ⟨1, 1, .deposit 10⟩ = new ∧
      (∀ c, c ≠ (1 : ℕ) → findAccount new.accounts c = findAccount Engine.new.accounts c) ∧
      (∀ t, t ≠ (1 : ℕ) → histGet new.history t = histGet Engine.new.history t) :=
  addTransaction_total_with_frame Engine.new ⟨1, 1, .deposit 10⟩

/-- C5: a Dispute on `tx_id` succeeds — `available -= amt`, `held += amt`,
record goes `UnderDispute` — exactly when a `Regular` record exists for the
`tx_id` and the referencing account's `available` covers the recorded
amount; in every other case (unknown id, already disputed, insufficient
funds) the account's balances are unchanged. -/
theorem dispute_succeeds_iff (e : Engine) (c t : ℕ) :
    (∃ amt : ℚ, histGet e.history t = some (.regular, amt) ∧
        amt ≤ (accountFor e.accounts c).available ∧
        (accountFor (addTransaction e ⟨c, t, .dispute⟩).accounts c).available
          = (accountFor e.accounts c).available - amt ∧
        (accountFor (addTransaction e ⟨c, t, .dispute⟩).accounts c).held
          = (accountFor e.accounts c).held + amt ∧
        histGet (addTransaction e ⟨c, t, .dispute⟩).history t = some (.underDispute, amt))
  ∨ ((¬ ∃ amt : ℚ, histGet e.history t = some (.regular, amt) ∧
          amt ≤ (accountFor e.accounts c).available) ∧
      (accountFor (addTransaction e ⟨c, t, .dispute⟩).accounts c).available
        = (accountFor e.accounts c).available ∧
      (accountFor (addTransaction e ⟨c, t, .dispute⟩).accounts c).held
        = (accountFor e.accounts c).held) := by
  have hself := accountFor_addTransaction_self e ⟨c, t, .dispute⟩
  rcases hg : histGet e.history t with _ | ⟨ti, amt⟩
  · refine Or.inr ⟨by simp, ?_, ?_⟩ <;>
      simp [hself, finalAccount, applyRules, hg]
  · cases ti with
    | regular =>
      by_cases hle : amt ≤ (accountFor e.accounts c).available
      · refine Or.inl ⟨amt, rfl, hle, ?_, ?_, ?_⟩
        · simp [hself, finalAccount, applyRules, hg, hle]
        · simp [hself, finalAccount, applyRules, hg, hle]
        · simpa [addTransaction, applyRules, hg, hle] using
            histGet_histInsert_self e.history t (.underDispute, amt)
      · refine Or.inr ⟨?_, ?_, ?_⟩
        · rintro ⟨amt2, heq, hle2⟩
          simp only [Option.some.injEq, Prod.mk.injEq, true_and] at heq
          exact hle (heq ▸ hle2)
        · simp [hself, finalAccount, applyRules, hg, hle]
        · simp [hself, finalAccount, applyRules, hg, hle]
    | underDispute =>
      refine Or.inr ⟨?_, ?_, ?_⟩
      · rintro ⟨amt2, heq, hle2⟩
        simp at heq
      · simp [hself, finalAccount, applyRules, hg]
      · simp [hself, finalAccount, applyRules, hg]

/-- C6: from a state with a `Regular` record for `tx_id` and sufficient
available funds, Dispute-then-Resolve restores `available` and `held` to
their pre-dispute values exactly; Dispute-then-Chargeback leaves `held`
reduced by the disputed amount, sets `locked`, and leaves `available` as it
was after the dispute. -/
theorem dispute_then_resolve_or_chargeback (e : Engine) (c t : ℕ) (amt : ℚ)
    (hreg : histGet e.history t = some (.regular, amt))
    (hav : amt ≤ (accountFor e.accounts c).available) :
    (accountFor (addTransaction (addTransaction e ⟨c, t, .dispute⟩)
        ⟨c, t, .resolve⟩).accounts c).available = (accountFor e.accounts c).available ∧
    (accountFor (addTransaction (addTransaction e ⟨c, t, .dispute⟩)
        ⟨c, t, .resolve⟩).accounts c).held = (accountFor e.accounts c).held ∧
    (accountFor (addTransaction (addTransaction e ⟨c, t, .dispute⟩)
        ⟨c, t, .chargeback⟩).accounts c).held
      = (accountFor (addTransaction e ⟨c, t, .dispute⟩).accounts c).held - amt ∧
    (accountFor (addTransaction (addTransaction e ⟨c, t, .dispute⟩)
        ⟨c, t, .chargeback⟩).accounts c).locked = true ∧
    (accountFor (addTransaction (addTransaction e ⟨c, t, .dispute⟩)
        ⟨c, t, .chargeback⟩).accounts c).available
      = (accountFor (addTransaction e ⟨c, t, .dispute⟩).accounts c).available := by
  have hDacc := accountFor_addTransaction_self e ⟨c, t, .dispute⟩
  have hDhist : histGet (addTransaction e ⟨c, t, .dispute⟩).history t
      = some (.underDispute, amt) := by
    simpa [addTransaction, applyRules, hreg, hav] using
      histGet_histInsert_self e.history t (.underDispute, amt)
  have hRacc := accountFor_addTransaction_self (addTransaction e ⟨c, t, .dispute⟩)
    ⟨c, t, .resolve⟩
  have hCacc := accountFor_addTransaction_self (addTransaction e ⟨c, t, .dispute⟩)
    ⟨c, t, .chargeback⟩
  refine ⟨?_, ?_, ?_, ?_, ?_⟩ <;>
    simp [hRacc, hCacc, finalAccount, applyRules, hDhist, hDacc, hreg, hav]

/-- Witness for C6 after a single deposit of 10 disputed in full. -/
theorem dispute_then_resolve_or_chargeback_witness :
    histGet (runEngine [⟨1, 1, .deposit 10⟩]).history 1 = some (.regular, 10) ∧
    (10 : ℚ) ≤ (accountFor (runEngine [⟨1, 1, .deposit 10⟩]).accounts 1).available ∧
    (accountFor (addTransaction (addTransaction (runEngine [⟨1, 1, .deposit 10⟩])
        ⟨1, 1, .dispute⟩) ⟨1, 1, .resolve⟩).accounts 1).available
      = (accountFor (runEngine [⟨1, 1, .deposit 10⟩]).accounts 1).available := by
  have h1 : histGet (runEngine [⟨1, 1, .deposit 10⟩]).history 1 = some (.regular, 10) := by
    norm_num [runEngine, addTransaction, applyRules, finalAccount, ensureAccount, accountFor,
      findAccount, updateAccount, histGet, histInsert, Engine.new, Account.new]
  have h2 : (10 : ℚ) ≤ (accountFor (runEngine [⟨1, 1, .deposit 10⟩]).accounts 1).available := by
    norm_num [runEngine, addTransaction, applyRules, finalAccount, ensureAccount, accountFor,
      findAccount, updateAccount, histGet, histInsert, Engine.new, Account.new]
  exact ⟨h1, h2, (dispute_then_resolve_or_chargeback _ 1 1 10 h1 h2).1⟩

/-- C7: a Dispute, Resolve or Chargeback whose `tx_id` has no history
record leaves every stored account — its `available`, `held`, `total` and
`locked` fields — exactly unchanged. -/
theorem unknown_txid_is_noop (txs : List Transaction) (tx : Transaction)
    (hkind : tx.txType = .dispute ∨ tx.txType = .resolve ∨ tx.txType = .chargeback)
    (hnone : histGet (runEngine txs).history tx.txId = none) (c : ℕ) (a : Account)
    (hfind : findAccount (runEngine txs).accounts c = some a) :
    findAccount (addTransaction (runEngine txs) tx).accounts c = some a := by
  by_cases hc : c = tx.clientId
  · subst hc
    have haccount : accountFor (runEngine txs).accounts tx.clientId = a := by
      unfold accountFor; rw [hfind]; rfl
    have htot : a.total = a.available + a.held :=
      invTotals_runEngine txs a (mem_of_findAccount _ _ _ hfind)
    have hfin : finalAccount (runEngine txs) tx = a := by
      unfold finalAccount
      rcases hkind with hk | hk | hk <;>
        · simp only [hk, applyRules, hnone, haccount]
          rw [← htot]
    rw [findAccount_addTransaction_self, hfin]
  · rw [findAccount_addTransaction_ne _ _ _ hc]
    exact hfind

/-- Witness for C7: a dispute on the unknown tx 9 after one deposit. -/
theorem unknown_txid_is_noop_witness :
    histGet (runEngine [⟨1, 1, .deposit 5⟩]).history 9 = none ∧
    findAccount (runEngine [⟨1, 1, .deposit 5⟩]).accounts 1 = some (Account.mk 1 5 0 5 false) ∧
    findAccount (addTransaction (runEngine [⟨1, 1, .deposit 5⟩]) ⟨1, 9, .dispute⟩).accounts 1
      = some (Account.mk 1 5 0 5 false) := by
  have h1 : histGet (runEngine [⟨1, 1, .deposit 5⟩]).history 9 = none := by
    norm_num [runEngine, addTransaction, applyRules, finalAccount, ensureAccount, accountFor,
      findAccount, updateAccount, histGet, histInsert, Engine.new, Account.new]
  have h2 : findAccount (runEngine [⟨1, 1, .deposit 5⟩]).accounts 1
      = some (Account.mk 1 5 0 5 false) := by
    norm_num [runEngine, addTransaction, applyRules, finalAccount, ensureAccount, accountFor,
      findAccount, updateAccount, histGet, histInsert, Engine.new, Account.new]
  exact ⟨h1, h2, unknown_txid_is_noop [⟨1, 1, .deposit 5⟩] ⟨1, 9, .dispute⟩
    (Or.inl rfl) h1 1 _ h2⟩

/-- C9: dispute-family transactions never check that their `client_id`
matches the depositor's: the balance mutation (and for Chargeback the
lock) is applied to the account named by the referencing transaction's
own `client_id`, using the amount recorded under the deposit's `tx_id`,
and every other client's account is untouched. -/
theorem cross_client_dispute_ops (e : Engine) (c d t : ℕ) (amt : ℚ) (hne : d ≠ c) :
    ((histGet e.history t = some (.regular, amt) ∧
        amt ≤ (accountFor e.accounts c).available) →
      (accountFor (addTransaction e ⟨c, t, .dispute⟩).accounts c).available
          = (accountFor e.accounts c).available - amt ∧
        (accountFor (addTransaction e ⟨c, t, .dispute⟩).accounts c).held
          = (accountFor e.accounts c).held + amt ∧
        findAccount (addTransaction e ⟨c, t, .dispute⟩).accounts d
          = findAccount e.accounts d) ∧
    (histGet e.history t = some (.underDispute, amt) →
      ((accountFor (addTransaction e ⟨c, t, .resolve⟩).accounts c).available
          = (accountFor e.accounts c).available + amt ∧
        (accountFor (addTransaction e ⟨c, t, .resolve⟩).accounts c).held
          = (accountFor e.accounts c).held - amt ∧
        findAccount (addTransaction e ⟨c, t, .resolve⟩).accounts d
          = findAccount e.accounts d) ∧
      ((accountFor (addTransaction e ⟨c, t, .chargeback⟩).accounts c).held
          = (accountFor e.accounts c).held - amt ∧
        (accountFor (addTransaction e ⟨c, t, .chargeback⟩).accounts c).locked = true ∧
        findAccount (addTransaction e ⟨c, t, .chargeback⟩).accounts d
          = findAccount e.accounts d)) := by
  have hD := accountFor_addTransaction_self e ⟨c, t, .dispute⟩
  have hR := accountFor_addTransaction_self e ⟨c, t, .resolve⟩
  have hC := accountFor_addTransaction_self e ⟨c, t, .chargeback⟩
  constructor
  · rintro ⟨hg, hle⟩
    refine ⟨?_, ?_, findAccount_addTransaction_ne _ _ _ hne⟩ <;>
      simp [hD, finalAccount, applyRules, hg, hle]
  · intro hg
    refine ⟨⟨?_, ?_, findAccount_addTransaction_ne _ _ _ hne⟩,
            ⟨?_, ?_, findAccount_addTransaction_ne _ _ _ hne⟩⟩ <;>
      simp [hR, hC, finalAccount, applyRules, hg]

/-- Witness for C9: client 2 disputes client 1's deposit (tx 1) and the
hold lands on client 2's account while client 1's account is untouched. -/
theorem cross_client_dispute_ops_witness :
    histGet (runEngine [⟨1, 1, .deposit 10⟩, ⟨2, 2, .deposit 10⟩]).history 1
      = some (.regular, 10) ∧
    (10 : ℚ) ≤ (accountFor (runEngine
      [⟨1, 1, .deposit 10⟩, ⟨2, 2, .deposit 10⟩]).accounts 2).available ∧
    (accountFor (addTransaction (runEngine [⟨1, 1, .deposit 10⟩, ⟨2, 2, .deposit 10⟩])
        ⟨2, 1, .dispute⟩).accounts 2).available
      = (accountFor (runEngine
          [⟨1, 1, .deposit 10⟩, ⟨2, 2, .deposit 10⟩]).accounts 2).available - 10 ∧
    (accountFor (addTransaction (runEngine [⟨1, 1, .deposit 10⟩, ⟨2, 2, .deposit 10⟩])
        ⟨2, 1, .dispute⟩).accounts 2).held
      = (accountFor (runEngine
          [⟨1, 1, .deposit 10⟩, ⟨2, 2, .deposit 10⟩]).accounts 2).held + 10 ∧
    findAccount (addTransaction (runEngine [⟨1, 1, .deposit 10⟩, ⟨2, 2, .deposit 10⟩])
        ⟨2, 1, .dispute⟩).accounts 1
      = findAccount (runEngine [⟨1, 1, .deposit 10⟩, ⟨2, 2, .deposit 10⟩]).accounts 1 := by
  have h1 : histGet (runEngine [⟨1, 1, .deposit 10⟩, ⟨2, 2, .deposit 10⟩]).history 1
      = some (.regular, 10) := by
    norm_num [runEngine, addTransaction, applyRules, finalAccount, ensureAccount, accountFor,
      findAccount, updateAccount, histGet, histInsert, Engine.new, Account.new]
  have h2 : (10 : ℚ) ≤ (accountFor (runEngine
      [⟨1, 1, .deposit 10⟩, ⟨2, 2, .deposit 10⟩]).accounts 2).available := by
    norm_num [runEngine, addTransaction, applyRules, finalAccount, ensureAccount, accountFor,
      findAccount, updateAccount, histGet, histInsert, Engine.new, Account.new]
  obtain ⟨ha, hb, hc⟩ := (cross_client_dispute_ops
    (runEngine [⟨1, 1, .deposit 10⟩, ⟨2, 2, .deposit 10⟩]) 2 1 1 10
    (by norm_num)).1 ⟨h1, h2⟩
  exact ⟨h1, h2, ha, hb, hc⟩

/-- C10: every `apply` creates a zero-balance, unlocked account for the
transaction's `client_id` when none exists — also for complete no-ops such
as a dispute-family transaction with an unknown `tx_id` or a rejected
withdrawal — and the created account is among the exported rows. -/
theorem account_created_on_apply (e : Engine) (tx : Transaction)
    (hnew : findAccount e.accounts tx.clientId = none) :
    (∃ a, findAccount (addTransaction e tx).accounts tx.clientId = some a ∧
        a ∈ getAccounts (addTransaction e tx)) ∧
    ((tx.txType = .dispute ∨ tx.txType = .resolve ∨ tx.txType = .chargeback) →
      histGet e.history tx.txId = none →
      findAccount (addTransaction e tx).accounts tx.clientId
        = some (Account.new tx.clientId)) ∧
    (∀ amt : ℚ, tx.txType = .withdrawal amt → ¬ amt ≤ (0 : ℚ) →
      findAccount (addTransaction e tx).accounts tx.clientId
        = some (Account.new tx.clientId)) := by
  have hacc : accountFor e.accounts tx.clientId = Account.new tx.clientId := by
    unfold accountFor; rw [hnew]; rfl
  refine ⟨⟨finalAccount e tx, findAccount_addTransaction_self e tx,
    mem_of_findAccount _ _ _ (findAccount_addTransaction_self e tx)⟩, ?_, ?_⟩
  · rintro hk hhist
    rw [findAccount_addTransaction_self]
    have hfin : finalAccount e tx = Account.new tx.clientId := by
      unfold finalAccount
      rcases hk with hk | hk | hk <;>
        simp [hk, applyRules, hhist, hacc, Account.new]
    rw [hfin]
  · rintro amt hk hneg
    rw [findAccount_addTransaction_self]
    have hfin : finalAccount e tx = Account.new tx.clientId := by
      unfold finalAccount
      simp [hk, applyRules, hacc, Account.new, hneg]
    rw [hfin]

/-- Witness for C10: a dispute on the unknown tx 7 from the previously
unseen client 1 creates client 1's zero account. -/
theorem account_created_on_apply_witness :
    findAccount Engine.new.accounts 1 = none ∧
    findAccount (addTransaction Engine.new ⟨1, 7, .dispute⟩).accounts 1
      = some (Account.new 1) := by
  have hnew : findAccount Engine.new.accounts 1 = none := rfl
  exact ⟨hnew, (account_created_on_apply Engine.new ⟨1, 7, .dispute⟩ hnew).2.1
    (Or.inl rfl) rfl⟩

end TransactionEngine
